import Mathlib

/-!
# Formal model of the `triangulation` repository

This file embeds the geometry core of the repository (affine transforms,
polygons, and the incremental edge-expansion triangulator) as executable
Lean definitions and settles the specification claims against them.

Embedding conventions:

* Rust `f32` arithmetic is modelled by exact rational arithmetic (`ℚ`).
  The numeric literals tested against in the source are mirrored exactly:
  `f32::EPSILON = 2⁻²³`, `1e-12`, `1e-10`, `1e-6`.
* The source compares Euclidean distances computed with `sqrt`; since
  `sqrt` is strictly monotone on nonnegative reals, the comparison is
  embedded as the equivalent comparison of squared distances, which keeps
  every definition inside `ℚ`.
* The source compares `atan2` values of offset vectors; `atan2` ordering
  on `(-π, π]` is embedded by the order-isomorphic comparator `angLt`
  (classify the vector by half-plane, then compare by cross product
  inside a half-plane).  See `atan2Region` below.
* Rust `HashSet` iteration order is unspecified; the worklist pop is
  therefore modelled by a pop *parameter*: `stepPop s e` performs one
  iteration of the `step_triangulation` worklist loop popping edge `e`.
  A run of the program is any chain of such pops.
-/

namespace Triang

/-- `egui::Pos2`, with `f32` coordinates modelled as `ℚ`. -/
structure Pos2 where
  x : ℚ
  y : ℚ
deriving DecidableEq, Repr

/-- `f32::EPSILON` = 2⁻²³, the threshold used by
`triangulation.rs::lines_intersect`. -/
def f32Eps : ℚ := 1 / 2 ^ 23

/-- The `1e-12` threshold used by `Transform2D::inverse` and
`Polygon::segments_intersect`. -/
def eps12 : ℚ := 1 / 10 ^ 12

/-- The `1e-6` tolerance used by `Polygon` for point coincidence. -/
def eps6 : ℚ := 1 / 10 ^ 6

/-! ## `transform2d.rs` -/

/-- `Transform2D`: 6 coefficients of the affine map
`(x, y) ↦ (a·x + b·y + c, d·x + e·y + f)`. -/
structure Transform2D where
  a : ℚ
  b : ℚ
  c : ℚ
  d : ℚ
  e : ℚ
  f : ℚ
deriving DecidableEq, Repr

namespace Transform2D

/-- `Transform2D::identity`. -/
def identity : Transform2D := ⟨1, 0, 0, 0, 1, 0⟩

/-- `Transform2D::translation`. -/
def translation (dx dy : ℚ) : Transform2D := ⟨1, 0, dx, 0, 1, dy⟩

/-- `Transform2D::scaling`. -/
def scaling (kx ky : ℚ) : Transform2D := ⟨kx, 0, 0, 0, ky, 0⟩

/-- `Transform2D::uniform_scaling`. -/
def uniform_scaling (s : ℚ) : Transform2D := scaling s s

/-- `Transform2D::shear`. -/
def shear (shx shy : ℚ) : Transform2D := ⟨1, shx, 0, shy, 1, 0⟩

/-- `Transform2D::reflection_x`. -/
def reflection_x : Transform2D := scaling 1 (-1)

/-- `Transform2D::reflection_y`. -/
def reflection_y : Transform2D := scaling (-1) 1

/-- `Transform2D::multiply` (composition of transforms). -/
def multiply (s o : Transform2D) : Transform2D :=
  ⟨s.a * o.a + s.b * o.d,
   s.a * o.b + s.b * o.e,
   s.a * o.c + s.b * o.f + s.c,
   s.d * o.a + s.e * o.d,
   s.d * o.b + s.e * o.e,
   s.d * o.c + s.e * o.f + s.f⟩

/-- `Transform2D::apply`. -/
def apply (t : Transform2D) (x y : ℚ) : ℚ × ℚ :=
  (t.a * x + t.b * y + t.c, t.d * x + t.e * y + t.f)

/-- `Transform2D::determinant`. -/
def determinant (t : Transform2D) : ℚ := t.a * t.e - t.b * t.d

/-- `Transform2D::inverse`.  The source `panic!`s when `|det| < 1e-12`;
the panic is modelled as `none`.  The coefficient formulas are copied
verbatim from the source (note the source uses `-d` for the new `b` and
`-b` for the new `d`). -/
def inverse (t : Transform2D) : Option Transform2D :=
  let det := t.determinant
  if |det| < eps12 then none
  else
    let inv_det := 1 / det
    some ⟨t.e * inv_det,
          -t.d * inv_det,
          (t.d * t.f - t.c * t.e) * inv_det,
          -t.b * inv_det,
          t.a * inv_det,
          (t.c * t.b - t.a * t.f) * inv_det⟩

/-- `Transform2D::is_identity`. -/
def is_identity (t : Transform2D) (tol : ℚ) : Bool :=
  |t.a - 1| < tol && |t.e - 1| < tol && |t.b| < tol && |t.c| < tol
    && |t.d| < tol && |t.f| < tol

end Transform2D

/-! ## `logic/polygon.rs` -/

/-- Indexing into the shared point array.  The source indexes with `[]`
(which panics out of bounds); every index reaching this function in the
modelled code paths is in bounds, so a default of `(0, 0)` is safe. -/
def getP (ps : List Pos2) (i : ℕ) : Pos2 := ps.getD i ⟨0, 0⟩

/-- `Polygon::segments_intersect` (parametric segment intersection with
the `1e-12` parallel threshold and `[0,1]` range tests). -/
def segmentsIntersect (a b c d : Pos2) : Option Pos2 :=
  let abDir : Pos2 := ⟨b.x - a.x, b.y - a.y⟩
  let cdDir : Pos2 := ⟨d.x - c.x, d.y - c.y⟩
  let n : Pos2 := ⟨-cdDir.y, cdDir.x⟩
  let denominator := n.x * abDir.x + n.y * abDir.y
  if |denominator| < eps12 then none
  else
    let ac : Pos2 := ⟨a.x - c.x, a.y - c.y⟩
    let numerator := -(n.x * ac.x + n.y * ac.y)
    let t := numerator / denominator
    if ¬ (0 ≤ t ∧ t ≤ 1) then none
    else
      let inter : Pos2 := ⟨a.x + t * abDir.x, a.y + t * abDir.y⟩
      let cdToInter : Pos2 := ⟨inter.x - c.x, inter.y - c.y⟩
      let dotP := cdDir.x * cdToInter.x + cdDir.y * cdToInter.y
      let cdLen2 := cdDir.x * cdDir.x + cdDir.y * cdDir.y
      let s := dotP / cdLen2
      if ¬ (0 ≤ s ∧ s ≤ 1) then none
      else some inter

/-- `Polygon::update_intersections`, as a function of the vertex list:
all proper crossings of non-adjacent edges, deduplicated within `1e-6`. -/
def updateIntersectionsList (vs : List Pos2) : List Pos2 :=
  let n := vs.length
  if n < 4 then []
  else
    (List.range n).foldl (fun acc i =>
      let a := getP vs i
      let b := getP vs ((i + 1) % n)
      (List.range' (i + 2) (n - (i + 2))).foldl (fun acc2 j =>
        if (j + 1) % n = i then acc2
        else
          let c := getP vs j
          let d := getP vs ((j + 1) % n)
          match segmentsIntersect a b c d with
          | none => acc2
          | some p =>
            if acc2.any (fun q => decide (|q.x - p.x| < eps6 ∧ |q.y - p.y| < eps6))
            then acc2
            else acc2 ++ [p]) acc) []

/-- `Polygon`: vertex list plus the cached self-intersection list. -/
structure Polygon where
  vertexes : List Pos2
  intersections : List Pos2
deriving DecidableEq, Repr

namespace Polygon

/-- `Polygon::new`: a one-vertex polygon. -/
def new (x y : ℚ) : Polygon := ⟨[⟨x, y⟩], []⟩

/-- `Polygon::from_pos`. -/
def from_pos (p : Pos2) : Polygon := new p.x p.y

/-- `Polygon::add_vertex`: append a vertex and recompute the
self-intersection cache. -/
def add_vertex (poly : Polygon) (x y : ℚ) : Polygon :=
  let vs := poly.vertexes ++ [⟨x, y⟩]
  ⟨vs, updateIntersectionsList vs⟩

/-- `Polygon::add_vertex_pos`. -/
def add_vertex_pos (poly : Polygon) (p : Pos2) : Polygon :=
  poly.add_vertex p.x p.y

/-- `Polygon::from_poses`.  The source calls `poses.first().unwrap()`,
which panics on an empty vector; the panic is modelled as `none`. -/
def from_poses : List Pos2 → Option Polygon
  | [] => none
  | p :: rest => some (rest.foldl add_vertex_pos (from_pos p))

/-- `Polygon::get_center`: arithmetic mean of the vertices. -/
def get_center (poly : Polygon) : Pos2 :=
  let sx := poly.vertexes.foldl (fun acc v => acc + v.x) 0
  let sy := poly.vertexes.foldl (fun acc v => acc + v.y) 0
  ⟨sx / (poly.vertexes.length : ℚ), sy / (poly.vertexes.length : ℚ)⟩

end Polygon

/-! ## `logic/triangulation.rs` -/

/-- `Edge`: a pair of point indices; `Edge::new` canonicalizes so the
smaller index comes first.  Equality is structural, on the stored pair. -/
structure Edge where
  fst : ℕ
  snd : ℕ
deriving DecidableEq, Repr

/-- `Edge::new`. -/
def Edge.new (a b : ℕ) : Edge := if a < b then ⟨a, b⟩ else ⟨b, a⟩

/-- `triangulation.rs::is_point_right`: `point` is strictly right of the
directed segment `start → stop` (cross product `< 0`). -/
def isPointRight (point start stop : Pos2) : Bool :=
  let seg : Pos2 := ⟨stop.x - start.x, stop.y - start.y⟩
  let pv : Pos2 := ⟨point.x - start.x, point.y - start.y⟩
  decide (seg.x * pv.y - seg.y * pv.x < 0)

/-- `triangulation.rs::is_point_left` (cross product `> 0`). -/
def isPointLeft (point start stop : Pos2) : Bool :=
  let seg : Pos2 := ⟨stop.x - start.x, stop.y - start.y⟩
  let pv : Pos2 := ⟨point.x - start.x, point.y - start.y⟩
  decide (seg.x * pv.y - seg.y * pv.x > 0)

/-- `triangulation.rs::lines_intersect`: intersection of the infinite
lines through `a b` and `c d`; the parallel test uses `f32::EPSILON`. -/
def linesIntersect (a b c d : Pos2) : Option Pos2 :=
  let den := (a.x - b.x) * (c.y - d.y) - (a.y - b.y) * (c.x - d.x)
  if |den| < f32Eps then none
  else
    let numX := (a.x * b.y - a.y * b.x) * (c.x - d.x) - (a.x - b.x) * (c.x * d.y - c.y * d.x)
    let numY := (a.x * b.y - a.y * b.x) * (c.y - d.y) - (a.y - b.y) * (c.x * d.y - c.y * d.x)
    some ⟨numX / den, numY / den⟩

/-- `triangulation.rs::calculate_center`: circumcenter of `a b c` via the
intersection of two perpendicular bisectors. -/
def calculateCenter (a b c : Pos2) : Option Pos2 :=
  let ab : Pos2 := ⟨b.x - a.x, b.y - a.y⟩
  let nAbStart : Pos2 := ⟨(a.x + b.x) / 2, (a.y + b.y) / 2⟩
  let nAbEnd : Pos2 := ⟨nAbStart.x + ab.y, nAbStart.y - ab.x⟩
  let ac : Pos2 := ⟨c.x - a.x, c.y - a.y⟩
  let nAcStart : Pos2 := ⟨(a.x + c.x) / 2, (a.y + c.y) / 2⟩
  let nAcEnd : Pos2 := ⟨nAcStart.x + ac.y, nAcStart.y - ac.x⟩
  linesIntersect nAbStart nAbEnd nAcStart nAcEnd

/-- One candidate examination of `find_right_conjugate_point`.  The
source computes the Euclidean distance from the edge midpoint to the
circumcenter with `sqrt` and compares with `<`; since `sqrt` is strictly
monotone on nonnegative inputs, this is embedded as the equivalent
comparison of squared distances, keeping the arithmetic in `ℚ`.
The accumulator is `none` exactly while `best_distance = INFINITY`. -/
def frcpStep (ps : List Pos2) (e0 e1 : ℕ) (acc : Option (ℕ × ℚ)) (i : ℕ) :
    Option (ℕ × ℚ) :=
  if i = e0 ∨ i = e1 then acc
  else
    let p1 := getP ps e0
    let p2 := getP ps e1
    let p3 := getP ps i
    if ¬ isPointRight p1 p2 p3 then acc
    else
      match calculateCenter p1 p2 p3 with
      | none => acc
      | some center =>
        let mid : Pos2 := ⟨(p1.x + p2.x) / 2, (p1.y + p2.y) / 2⟩
        let d2 := (mid.x - center.x) ^ 2 + (mid.y - center.y) ^ 2
        match acc with
        | none => some (i, d2)
        | some (j, bd) => if d2 < bd then some (i, d2) else some (j, bd)

/-- `triangulation.rs::find_right_conjugate_point`. -/
def findRightConjugatePoint (ps : List Pos2) (e : Edge) : Option ℕ :=
  ((List.range ps.length).foldl (frcpStep ps e.fst e.snd) none).map Prod.fst

/-- `triangulation.rs::angle_with_horizontal` comparison.  The source
compares two `atan2` values with `<`; `atan2` orders nonzero vectors by
their angle in `(-π, π]`.  This comparator is order-isomorphic to that
comparison, entirely inside `ℚ`: vectors are classified by half-plane
(`atan2Region`, increasing with the angle), and two vectors in the same
open half-plane are ordered by the sign of their cross product.
`atan2(0, 0) = 0` in Rust, which lands in region 1 as well. -/
def atan2Region (dy dx : ℚ) : ℕ :=
  if dy < 0 then 0
  else if dy = 0 ∧ 0 ≤ dx then 1
  else if 0 < dy then 2
  else 3

/-- `atan2 v.y v.x < atan2 w.y w.x`, embedded order-isomorphically
(see `atan2Region`). -/
def angLt (v w : Pos2) : Prop :=
  atan2Region v.y v.x < atan2Region w.y w.x
    ∨ (atan2Region v.y v.x = atan2Region w.y w.x ∧ v.x * w.y - v.y * w.x > 0)

instance (v w : Pos2) : Decidable (angLt v w) := by
  unfold angLt; infer_instance

/-- `angle_with_horizontal(p1, pa) < angle_with_horizontal(p1, pb)`. -/
def angleLtFrom (p1 pa pb : Pos2) : Prop :=
  angLt ⟨pa.x - p1.x, pa.y - p1.y⟩ ⟨pb.x - p1.x, pb.y - p1.y⟩

instance (p1 pa pb : Pos2) : Decidable (angleLtFrom p1 pa pb) := by
  unfold angleLtFrom; infer_instance

/-- The loop body of the leftmost-point scan: keep `i` when it is
strictly lexicographically smaller (lower `x`, ties by lower `y`). -/
def lmStep (ps : List Pos2) (L i : ℕ) : ℕ :=
  if (getP ps i).x < (getP ps L).x
      ∨ ((getP ps i).x = (getP ps L).x ∧ (getP ps i).y < (getP ps L).y)
  then i else L

/-- The leftmost-point scan of `find_initial_edge`: lowest `x`, ties
broken by lowest `y`, starting from index 0 and scanning `1..n`. -/
def leftmostIdx (ps : List Pos2) : ℕ :=
  (List.range' 1 (ps.length - 1)).foldl (lmStep ps) 0

/-- The loop body of the minimal-angle scan: skip the leftmost point
itself, otherwise keep `i` when its `atan2` angle from the leftmost
point is strictly smaller than the current best's. -/
def baStep (ps : List Pos2) (L B i : ℕ) : ℕ :=
  if i = L then B
  else if angleLtFrom (getP ps L) (getP ps i) (getP ps B) then i else B

/-- The minimal-angle scan of `find_initial_edge`, starting from
`(L + 1) % n` and scanning all `i ≠ L`. -/
def bestAngleIdx (ps : List Pos2) (L : ℕ) : ℕ :=
  (List.range ps.length).foldl (baStep ps L) ((L + 1) % ps.length)

/-- `triangulation.rs::find_initial_edge`. -/
def findInitialEdge (ps : List Pos2) : Edge :=
  let L := leftmostIdx ps
  Edge.new L (bestAngleIdx ps L)

/-- `TriangulationState`.  `triangleIdxs` is ghost instrumentation, not a
source field: it records, for each polygon pushed onto `triangles`, the
index triple `(edge.0, edge.1, best_point)` it was built from, so that
claims about triangles "as vertex-index triples" can be stated. -/
structure TriangulationState where
  points : List Pos2
  triangles : List Polygon
  triangleIdxs : List (ℕ × ℕ × ℕ)
  alive_edges : Finset Edge
  dead_edges : Finset Edge
deriving DecidableEq

/-- The empty state over a given input point list. -/
def emptyState (ps : List Pos2) : TriangulationState := ⟨ps, [], [], ∅, ∅⟩

/-- `triangulation.rs::init_triangulation`. -/
def initTriangulation (s : TriangulationState) : TriangulationState :=
  if s.points.length < 3 then s
  else
    { s with triangles := [], triangleIdxs := [],
             alive_edges := {findInitialEdge s.points}, dead_edges := ∅ }

/-- The `for edge in edges_to_add` body of `step_triangulation`. -/
def processNewEdge (st : TriangulationState) (ed : Edge) : TriangulationState :=
  if ed ∉ st.dead_edges ∧ ed ∉ st.alive_edges then
    { st with alive_edges := insert ed st.alive_edges }
  else if ed ∈ st.alive_edges then
    { st with alive_edges := st.alive_edges.erase ed,
              dead_edges := insert ed st.dead_edges }
  else st

/-- One iteration of the worklist loop of `step_triangulation`, popping
edge `e` from the alive set (Rust `HashSet` iteration order is
unspecified, so the popped edge is a parameter).  If `e` is already dead
or has no right conjugate point the iteration just drops it (`continue`);
otherwise the triangle is emitted, the two new edges are examined, and
`e` is recorded dead.  A call of `step_triangulation` is a chain of such
iterations. -/
def stepPop (s : TriangulationState) (e : Edge) : TriangulationState :=
  let s1 := { s with alive_edges := s.alive_edges.erase e }
  if e ∈ s.dead_edges then s1
  else
    match findRightConjugatePoint s.points e with
    | none => s1
    | some best =>
      let pe0 := getP s.points e.fst
      let pe1 := getP s.points e.snd
      let pb := getP s.points best
      let tri := (Polygon.from_poses [pe0, pe1, pb]).getD ⟨[], []⟩
      let s2 := { s1 with triangles := s1.triangles ++ [tri],
                          triangleIdxs := s1.triangleIdxs ++ [(e.fst, e.snd, best)] }
      let ed1 := if isPointLeft pe1 pe0 pb then Edge.new e.fst best
                 else Edge.new best e.fst
      let ed2 := if isPointLeft pe0 pe1 pb then Edge.new e.snd best
                 else Edge.new best e.snd
      let s4 := processNewEdge (processNewEdge s2 ed1) ed2
      { s4 with dead_edges := insert e s4.dead_edges }

/-- A run of worklist iterations with an explicit pop order. -/
def runPops (s : TriangulationState) (pops : List Edge) : TriangulationState :=
  pops.foldl stepPop s

/-- States reachable from an empty state by `init_triangulation` calls
and worklist iterations of `step_triangulation` (with arbitrary pop
choices). -/
inductive Reachable : TriangulationState → Prop
  | base (ps : List Pos2) : Reachable (emptyState ps)
  | init {s : TriangulationState} : Reachable s → Reachable (initTriangulation s)
  | pop {s : TriangulationState} (e : Edge) (he : e ∈ s.alive_edges) :
      Reachable s → Reachable (stepPop s e)

/-- A pop sequence is valid when every popped edge is in the alive set
at the moment it is popped (so the sequence is a genuine run of the
worklist loop). -/
def popsValid : TriangulationState → List Edge → Bool
  | _, [] => true
  | s, e :: rest => decide (e ∈ s.alive_edges) && popsValid (stepPop s e) rest

/-- The emitted triangles of a state, as the set of unordered
vertex-index triples. -/
def triSet (s : TriangulationState) : Finset (Finset ℕ) :=
  (s.triangleIdxs.map (fun t => ({t.1, t.2.1, t.2.2} : Finset ℕ))).toFinset

/-- A valid conjugate-point candidate for edge `e` in the source's
sense: an index of a point other than the edge endpoints, strictly on
the right of the directed edge, whose circumcenter with the edge
endpoints exists. -/
def validCand (ps : List Pos2) (e : Edge) (i : ℕ) : Prop :=
  i < ps.length ∧ i ≠ e.fst ∧ i ≠ e.snd
    ∧ isPointRight (getP ps e.fst) (getP ps e.snd) (getP ps i) = true
    ∧ (calculateCenter (getP ps e.fst) (getP ps e.snd) (getP ps i)).isSome = true

instance (ps : List Pos2) (e : Edge) (i : ℕ) : Decidable (validCand ps e i) := by
  unfold validCand; infer_instance

/-- Squared distance from the midpoint of edge `e` to the circumcenter
of the edge endpoints with point `i` (`0` when no circumcenter exists;
only used under `validCand`). -/
def candDist2 (ps : List Pos2) (e : Edge) (i : ℕ) : ℚ :=
  let p1 := getP ps e.fst
  let p2 := getP ps e.snd
  match calculateCenter p1 p2 (getP ps i) with
  | none => 0
  | some center =>
    let mid : Pos2 := ⟨(p1.x + p2.x) / 2, (p1.y + p2.y) / 2⟩
    (mid.x - center.x) ^ 2 + (mid.y - center.y) ^ 2

/-! ### Spec-side model for claim C2

The following definitions follow the *words of the specification* for
the right-conjugate-point selection, to be compared with the source
function `findRightConjugatePoint` above: candidates whose circumcenter
determinant has magnitude below `1e-10` are rejected, and among valid
candidates the one minimizing the *signed projection* of the vector from
the edge midpoint to the circumcenter onto the edge's right-pointing
normal is selected.  The projection is taken against the unnormalized
right normal `(dy, -dx)`; normalizing would divide every candidate's
score by the same positive constant `|p2 - p1|`, which does not change
the minimizer. -/

/-- The `1e-10` circumcenter-rejection threshold named by the spec. -/
def eps10 : ℚ := 1 / 10 ^ 10

/-- Spec-side `lines_intersect` with the spec's `1e-10` threshold. -/
def linesIntersectSpec (a b c d : Pos2) : Option Pos2 :=
  let den := (a.x - b.x) * (c.y - d.y) - (a.y - b.y) * (c.x - d.x)
  if |den| < eps10 then none
  else
    let numX := (a.x * b.y - a.y * b.x) * (c.x - d.x) - (a.x - b.x) * (c.x * d.y - c.y * d.x)
    let numY := (a.x * b.y - a.y * b.x) * (c.y - d.y) - (a.y - b.y) * (c.x * d.y - c.y * d.x)
    some ⟨numX / den, numY / den⟩

/-- Spec-side circumcenter with the spec's `1e-10` threshold. -/
def calculateCenterSpec (a b c : Pos2) : Option Pos2 :=
  let ab : Pos2 := ⟨b.x - a.x, b.y - a.y⟩
  let nAbStart : Pos2 := ⟨(a.x + b.x) / 2, (a.y + b.y) / 2⟩
  let nAbEnd : Pos2 := ⟨nAbStart.x + ab.y, nAbStart.y - ab.x⟩
  let ac : Pos2 := ⟨c.x - a.x, c.y - a.y⟩
  let nAcStart : Pos2 := ⟨(a.x + c.x) / 2, (a.y + c.y) / 2⟩
  let nAcEnd : Pos2 := ⟨nAcStart.x + ac.y, nAcStart.y - ac.x⟩
  linesIntersectSpec nAbStart nAbEnd nAcStart nAcEnd

/-- One candidate examination of the spec-side selection: the score is
the signed projection of `center - mid` onto the right-pointing normal
`(dy, -dx)` of the directed edge. -/
def frcpSpecStep (ps : List Pos2) (e0 e1 : ℕ) (acc : Option (ℕ × ℚ)) (i : ℕ) :
    Option (ℕ × ℚ) :=
  if i = e0 ∨ i = e1 then acc
  else
    let p1 := getP ps e0
    let p2 := getP ps e1
    let p3 := getP ps i
    if ¬ isPointRight p1 p2 p3 then acc
    else
      match calculateCenterSpec p1 p2 p3 with
      | none => acc
      | some center =>
        let mid : Pos2 := ⟨(p1.x + p2.x) / 2, (p1.y + p2.y) / 2⟩
        let score := (center.x - mid.x) * (p2.y - p1.y)
          + (center.y - mid.y) * (-(p2.x - p1.x))
        match acc with
        | none => some (i, score)
        | some (j, bs) => if score < bs then some (i, score) else some (j, bs)

/-- The right-conjugate-point selection as the specification words it
(see `frcpSpecStep`). -/
def findRightConjugatePointSpec (ps : List Pos2) (e : Edge) : Option ℕ :=
  ((List.range ps.length).foldl (frcpSpecStep ps e.fst e.snd) none).map Prod.fst

/-- Strict lexicographic comparison used by the leftmost-point scan:
lower `x`, ties broken by lower `y`. -/
def lexLt (p q : Pos2) : Prop := p.x < q.x ∨ (p.x = q.x ∧ p.y < q.y)

/-- Non-strict lexicographic comparison (lower `x`, ties by `y`). -/
def lexLe (p q : Pos2) : Prop := p.x < q.x ∨ (p.x = q.x ∧ p.y ≤ q.y)

/-! ### Concrete inputs used to settle the claims -/

/-- Three non-collinear points whose seed edge has no point on its
right: `(0,0), (1,0), (0,1)`. -/
def psTri : List Pos2 := [⟨0, 0⟩, ⟨1, 0⟩, ⟨0, 1⟩]

/-- Three non-collinear points on which the triangulation does emit a
triangle: `(0,0), (1,0), (0,-1)`. -/
def psTriB : List Pos2 := [⟨0, 0⟩, ⟨1, 0⟩, ⟨0, -1⟩]

/-- Four points separating the two conjugate-point scoring rules for the
edge `0 → 1`: candidate 2 has its circumcenter far on the *left* of the
edge (signed projection `-99/10`, distance `99/20`), candidate 3 has its
circumcenter exactly on the edge midpoint (projection and distance `0`). -/
def psScore : List Pos2 := [⟨0, 0⟩, ⟨2, 0⟩, ⟨1, -1/10⟩, ⟨1, -1⟩]

/-- Three points whose only right-side candidate for edge `0 → 1` has a
circumcenter determinant of magnitude `1e-8`: above the spec's `1e-10`
threshold but below the source's `f32::EPSILON = 2⁻²³`. -/
def psThresh : List Pos2 := [⟨0, 0⟩, ⟨1, 0⟩, ⟨1/2, -(1/10^8)⟩]

/-- Five points on which the set of emitted triangles depends on the
worklist pop order. -/
def psOrder : List Pos2 := [⟨4, 0⟩, ⟨2, -1⟩, ⟨1, -3⟩, ⟨3, -3⟩, ⟨0, 0⟩]

end Triang

namespace Triang

/-! ## Theorems settling the claims -/

section RatEval

/- The Batteries `Rat` operations are `@[irreducible]`, which blocks
kernel evaluation in `decide`.  Restore default reducibility locally, in
this section only, so the concrete counterexample states can be
evaluated; the symbolic proofs outside this section keep the default
reducibility (unfolding `Rat.add` on abstract arguments makes `whnf`
diverge). -/
attribute [local semireducible] Rat.add Rat.mul Rat.sub Rat.inv

/-- **C1** (code bug): on the input `(0,0), (1,0), (0,1)` the seeded
alive edge `(0,1)` has no input point strictly on its right, so it is a
hull boundary edge; the claim (and the spec) say `step` marks it dead
and returns.  The code instead erases it from the alive set and
`continue`s the worklist loop without recording it anywhere: the
resulting state has an *empty* dead set — the hull edge has vanished. -/
theorem step_drops_right_less_edge_instead_of_marking_dead :
    findRightConjugatePoint psTri ⟨0, 1⟩ = none
      ∧ (initTriangulation (emptyState psTri)).alive_edges = {(⟨0, 1⟩ : Edge)}
      ∧ (stepPop (initTriangulation (emptyState psTri)) ⟨0, 1⟩).dead_edges = ∅
      ∧ (stepPop (initTriangulation (emptyState psTri)) ⟨0, 1⟩).alive_edges = ∅ := by
  decide

/-- **C3** (code bug): the input `(0,0), (1,0), (0,1)` is non-collinear,
`initialize` seeds the single alive edge `(0,1)` (so every run pops it
first), and that one worklist iteration already empties the alive set,
leaving *zero* triangles and an *empty* dead set — not the claimed one
triangle and three dead hull edges.  The run is over (alive is empty)
but `is_triangulation_completed` is false forever. -/
theorem run_on_three_points_yields_no_triangle :
    ((getP psTri 1).x - (getP psTri 0).x) * ((getP psTri 2).y - (getP psTri 0).y)
        - ((getP psTri 1).y - (getP psTri 0).y) * ((getP psTri 2).x - (getP psTri 0).x) ≠ 0
      ∧ (initTriangulation (emptyState psTri)).alive_edges = {(⟨0, 1⟩ : Edge)}
      ∧ stepPop (initTriangulation (emptyState psTri)) ⟨0, 1⟩ = emptyState psTri := by
  decide

/-- **C5** (code bug): `inverse` does fail exactly on `|det| < 1e-12`
and is pure, but the returned matrix is *not* the algebraic inverse: the
source swaps the roles of `b` and `d` (it inverts the transposed linear
map).  On the shear `(x,y) ↦ (x+y, y)` the claimed round trip
`T.inverse().apply(T.apply(p)) ≈ p` (spec §8, tolerance `1e-4`) fails by
a full unit: `(0,1) ↦ (1,1) ↦ (1,0)`. -/
theorem inverse_of_shear_fails_round_trip :
    (∀ t : Transform2D, t.inverse = none ↔ |t.determinant| < eps12)
      ∧ (Transform2D.shear 1 0).inverse = some ⟨1, 0, 0, -1, 1, 0⟩
      ∧ (Transform2D.shear 1 0).apply 0 1 = (1, 1)
      ∧ (Transform2D.mk 1 0 0 (-1) 1 0).apply 1 1 = (1, 0)
      ∧ ((1 : ℚ), (0 : ℚ)) ≠ ((0 : ℚ), (1 : ℚ)) := by
  refine ⟨fun t => ?_, by decide, by decide, by decide, by decide⟩
  by_cases h : |t.determinant| < eps12 <;> simp [Transform2D.inverse, h]

/-- **C8** (counterexample): on the input `(0,0), (1,0), (0,-1)` the
first worklist iteration pops the seed edge `(1,2)`, emits the triangle
`(1,2,0)` and records the new edge between vertex 2 and best point 0 as
the canonical pair `(0,2)`.  The third vertex of that triangle, vertex
1, is *not* on the right of the stored direction `0 → 2`
(`is_point_right` is false: it is strictly left), so the recorded edge
does not carry an interior-on-the-right sense — `Edge::new` sorts the
indices and erases the orientation chosen by the left/right test. -/
theorem step_edge_does_not_record_interior_right_sense :
    (Edge.mk 0 2) ∈ (stepPop (initTriangulation (emptyState psTriB)) ⟨1, 2⟩).alive_edges
      ∧ (stepPop (initTriangulation (emptyState psTriB)) ⟨1, 2⟩).triangleIdxs = [(1, 2, 0)]
      ∧ isPointRight (getP psTriB 1) (getP psTriB 0) (getP psTriB 2) = false
      ∧ isPointLeft (getP psTriB 1) (getP psTriB 0) (getP psTriB 2) = true := by
  decide

/-- **C9** (code bug): on the five-point input `psOrder` two valid runs
(every popped edge alive at its pop, both ending with an empty alive
set) emit *different sets* of triangles as unordered vertex-index
triples: popping `(2,4), (1,2)` yields only `{1,2,4}`, while popping
`(2,4), (1,4), (0,1), (1,2)` also yields `{0,1,4}`. -/
theorem triangle_set_depends_on_pop_order :
    popsValid (initTriangulation (emptyState psOrder)) [⟨2, 4⟩, ⟨1, 2⟩] = true
      ∧ popsValid (initTriangulation (emptyState psOrder))
          [⟨2, 4⟩, ⟨1, 4⟩, ⟨0, 1⟩, ⟨1, 2⟩] = true
      ∧ (runPops (initTriangulation (emptyState psOrder))
          [⟨2, 4⟩, ⟨1, 2⟩]).alive_edges = ∅
      ∧ (runPops (initTriangulation (emptyState psOrder))
          [⟨2, 4⟩, ⟨1, 4⟩, ⟨0, 1⟩, ⟨1, 2⟩]).alive_edges = ∅
      ∧ triSet (runPops (initTriangulation (emptyState psOrder)) [⟨2, 4⟩, ⟨1, 2⟩])
          ≠ triSet (runPops (initTriangulation (emptyState psOrder))
              [⟨2, 4⟩, ⟨1, 4⟩, ⟨0, 1⟩, ⟨1, 2⟩]) := by
  decide

end RatEval

/-- **C4** (confirmed): applying `multiply(a, b)` to a point equals
applying `b` first and then `a` — composition in application order. -/
theorem multiply_apply_composes (t1 t2 : Transform2D) (x y : ℚ) :
    (t1.multiply t2).apply x y = t1.apply (t2.apply x y).1 (t2.apply x y).2 := by
  simp only [Transform2D.multiply, Transform2D.apply, Prod.mk.injEq]
  constructor <;> ring


/-- **C8** (amended): an `Edge` is an unordered pair canonicalized so
the smaller index is first, with equality on the canonical pair; but the
orientation chosen by the left/right test in `step` is erased by that
canonicalization — both branches of the test produce the *same* edge, so
the recorded edge carries no interior-on-the-right sense. -/
theorem edge_new_canonical_and_orientation_erased (a b : ℕ) :
    (Edge.new a b).fst = min a b ∧ (Edge.new a b).snd = max a b
      ∧ Edge.new b a = Edge.new a b
      ∧ ∀ c : Bool, (if c then Edge.new a b else Edge.new b a) = Edge.new a b := by
  refine ⟨?_, ?_, ?_, ?_⟩
  · unfold Edge.new; split <;> simp <;> omega
  · unfold Edge.new; split <;> simp <;> omega
  · unfold Edge.new; split <;> split <;> (try rfl) <;> (rename_i h1 h2; simp; omega)
  · intro c
    cases c
    · simp only [Bool.false_eq_true, if_false]
      unfold Edge.new; split <;> split <;> (try rfl) <;> (rename_i h1 h2; simp; omega)
    · rfl


/-- Invariant of one candidate examination of
`find_right_conjugate_point`: the accumulator is `none` exactly while no
valid candidate has been seen, and otherwise holds a seen valid
candidate of minimal (squared) midpoint-to-circumcenter distance. -/
theorem frcpStep_invariant (ps : List Pos2) (e : Edge) (seen : List ℕ) (i : ℕ)
    (hi : i < ps.length) (acc : Option (ℕ × ℚ))
    (h1 : acc = none → ∀ j ∈ seen, ¬ validCand ps e j)
    (h2 : ∀ k d, acc = some (k, d) → k ∈ seen ∧ validCand ps e k
        ∧ d = candDist2 ps e k
        ∧ ∀ j ∈ seen, validCand ps e j → d ≤ candDist2 ps e j) :
    (frcpStep ps e.fst e.snd acc i = none → ∀ j ∈ seen ++ [i], ¬ validCand ps e j)
    ∧ (∀ k d, frcpStep ps e.fst e.snd acc i = some (k, d) → k ∈ seen ++ [i]
        ∧ validCand ps e k ∧ d = candDist2 ps e k
        ∧ ∀ j ∈ seen ++ [i], validCand ps e j → d ≤ candDist2 ps e j) := by
  have extend_invalid : ¬ validCand ps e i →
      ((acc = none → ∀ j ∈ seen ++ [i], ¬ validCand ps e j)
        ∧ (∀ k d, acc = some (k, d) → k ∈ seen ++ [i]
            ∧ validCand ps e k ∧ d = candDist2 ps e k
            ∧ ∀ j ∈ seen ++ [i], validCand ps e j → d ≤ candDist2 ps e j)) := by
    intro hbad
    constructor
    · intro hn j hj
      rcases List.mem_append.1 hj with hj | hj
      · exact h1 hn j hj
      · simp only [List.mem_singleton] at hj
        subst hj; exact hbad
    · intro k d hk
      obtain ⟨hks, hkv, hkd, hkmin⟩ := h2 k d hk
      refine ⟨List.mem_append.2 (Or.inl hks), hkv, hkd, ?_⟩
      intro j hj hjv
      rcases List.mem_append.1 hj with hj | hj
      · exact hkmin j hj hjv
      · simp only [List.mem_singleton] at hj
        subst hj; exact absurd hjv hbad
  simp only [frcpStep]
  by_cases hskip : i = e.fst ∨ i = e.snd
  · simp only [hskip, if_true]
    exact extend_invalid (fun hv => hskip.elim (fun h => hv.2.1 h) (fun h => hv.2.2.1 h))
  · simp only [hskip, if_false]
    by_cases hright : isPointRight (getP ps e.fst) (getP ps e.snd) (getP ps i) = true
    · simp only [hright, not_true, if_false]
      cases hc : calculateCenter (getP ps e.fst) (getP ps e.snd) (getP ps i) with
      | none =>
        refine extend_invalid (fun hv => ?_)
        obtain ⟨-, -, -, -, hsome⟩ := hv
        rw [hc] at hsome
        exact Bool.false_ne_true hsome
      | some center =>
        have hvi : validCand ps e i := by
          refine ⟨hi, fun h => hskip (Or.inl h), fun h => hskip (Or.inr h), hright, ?_⟩
          rw [hc]; rfl
        have hmem_i : i ∈ seen ++ [i] := List.mem_append.2 (Or.inr (List.mem_singleton.2 rfl))
        dsimp only
        cases acc with
        | none =>
          dsimp only
          refine ⟨fun h => absurd h (Option.some_ne_none _), ?_⟩
          intro k d hk
          simp only [Option.some.injEq, Prod.mk.injEq] at hk
          obtain ⟨hki, hkd⟩ := hk
          subst hki; subst hkd
          refine ⟨hmem_i, hvi, by unfold candDist2; dsimp only; rw [hc], ?_⟩
          intro j hj hjv
          rcases List.mem_append.1 hj with hj | hj
          · exact absurd hjv (h1 rfl j hj)
          · simp only [List.mem_singleton] at hj
            subst hj
            exact le_of_eq (by unfold candDist2; dsimp only; rw [hc])
        | some kb =>
          obtain ⟨k0, bd⟩ := kb
          dsimp only
          obtain ⟨hks, hkv, hkd, hkmin⟩ := h2 k0 bd rfl
          split_ifs with hlt
          · refine ⟨fun h => h.elim, ?_⟩
            intro k d hk
            simp only [Option.some.injEq, Prod.mk.injEq] at hk
            obtain ⟨hki, hkd2⟩ := hk
            subst hki; subst hkd2
            refine ⟨hmem_i, hvi, by unfold candDist2; dsimp only; rw [hc], ?_⟩
            intro j hj hjv
            rcases List.mem_append.1 hj with hj | hj
            · exact le_trans (le_of_lt hlt) (hkd ▸ hkmin j hj hjv)
            · simp only [List.mem_singleton] at hj
              subst hj
              exact le_of_eq (by unfold candDist2; dsimp only; rw [hc])
          · refine ⟨fun h => h.elim, ?_⟩
            intro k d hk
            simp only [Option.some.injEq, Prod.mk.injEq] at hk
            obtain ⟨hki, hkd2⟩ := hk
            subst hki; subst hkd2
            refine ⟨List.mem_append.2 (Or.inl hks), hkv, hkd, ?_⟩
            intro j hj hjv
            rcases List.mem_append.1 hj with hj | hj
            · exact hkmin j hj hjv
            · simp only [List.mem_singleton] at hj
              subst hj
              exact le_trans (le_of_not_lt hlt) (le_of_eq (by unfold candDist2; dsimp only; rw [hc]))
    · simp only [hright, not_false_iff, if_true]
      exact extend_invalid (fun hv => hright hv.2.2.2.1)


/-- Worklist invariant of the candidate fold of
`find_right_conjugate_point`, for any suffix of candidates `l` on top of
already-seen candidates `seen`. -/
theorem frcp_foldl_invariant (ps : List Pos2) (e : Edge) :
    ∀ (l : List ℕ) (seen : List ℕ) (acc : Option (ℕ × ℚ)),
      (∀ i ∈ l, i < ps.length) →
      (acc = none → ∀ j ∈ seen, ¬ validCand ps e j) →
      (∀ k d, acc = some (k, d) → k ∈ seen ∧ validCand ps e k
          ∧ d = candDist2 ps e k
          ∧ ∀ j ∈ seen, validCand ps e j → d ≤ candDist2 ps e j) →
      ((l.foldl (frcpStep ps e.fst e.snd) acc = none →
          ∀ j ∈ seen ++ l, ¬ validCand ps e j)
        ∧ (∀ k d, l.foldl (frcpStep ps e.fst e.snd) acc = some (k, d) →
            k ∈ seen ++ l ∧ validCand ps e k ∧ d = candDist2 ps e k
              ∧ ∀ j ∈ seen ++ l, validCand ps e j → d ≤ candDist2 ps e j)) := by
  intro l
  induction l with
  | nil =>
    intro seen acc _ h1 h2
    simpa using ⟨h1, h2⟩
  | cons i l ih =>
    intro seen acc hl h1 h2
    have hi : i < ps.length := hl i (List.mem_cons_self i l)
    have step := frcpStep_invariant ps e seen i hi acc h1 h2
    have hl2 : ∀ j ∈ l, j < ps.length := fun j hj => hl j (List.mem_cons_of_mem i hj)
    have main := ih (seen ++ [i]) (frcpStep ps e.fst e.snd acc i) hl2 step.1 step.2
    simpa [List.append_assoc] using main

/-- **C2** (amended): `find_right_conjugate_point` considers exactly the
points strictly right of the directed edge whose circumcenter with the
edge endpoints exists (the source rejection threshold is
`f32::EPSILON = 2⁻²³` on the perpendicular-bisector determinant, not the
claimed `1e-10`), and among those it returns one minimizing the
*Euclidean distance* from the edge midpoint to the circumcenter (the
claimed signed-projection score is not the implemented rule); it returns
`none` exactly when no valid candidate exists. -/
theorem findRightConjugatePoint_minimizes (ps : List Pos2) (e : Edge) :
    (∀ i, findRightConjugatePoint ps e = some i →
        validCand ps e i
          ∧ ∀ j, validCand ps e j → candDist2 ps e i ≤ candDist2 ps e j)
    ∧ (findRightConjugatePoint ps e = none ↔ ∀ j, ¬ validCand ps e j) := by
  obtain ⟨bnone, bsome⟩ := frcp_foldl_invariant ps e (List.range ps.length) [] none
    (fun i hi => List.mem_range.1 hi)
    (fun _ j hj => absurd hj (List.not_mem_nil j))
    (fun k d h => Option.noConfusion h)
  constructor
  · intro i hsome
    unfold findRightConjugatePoint at hsome
    cases hres : (List.range ps.length).foldl (frcpStep ps e.fst e.snd) none with
    | none =>
      rw [hres] at hsome
      exact Option.noConfusion hsome
    | some kd =>
      obtain ⟨k, d⟩ := kd
      rw [hres] at hsome
      simp only [Option.map_some', Option.some.injEq] at hsome
      subst hsome
      obtain ⟨hmem, hvalid, hd, hmin⟩ := bsome k d hres
      refine ⟨hvalid, fun j hjv => ?_⟩
      have hjmem : j ∈ ([] : List ℕ) ++ List.range ps.length := by
        simpa [List.mem_range] using hjv.1
      have hle := hmin j hjmem hjv
      rw [hd] at hle
      exact hle
  · constructor
    · intro hnone j hjv
      unfold findRightConjugatePoint at hnone
      cases hres : (List.range ps.length).foldl (frcpStep ps e.fst e.snd) none with
      | none =>
        have hjmem : j ∈ ([] : List ℕ) ++ List.range ps.length := by
          simpa [List.mem_range] using hjv.1
        exact bnone hres j hjmem hjv
      | some kd =>
        rw [hres] at hnone
        exact Option.noConfusion hnone
    · intro hall
      unfold findRightConjugatePoint
      cases hres : (List.range ps.length).foldl (frcpStep ps e.fst e.snd) none with
      | none => rfl
      | some kd =>
        obtain ⟨k, d⟩ := kd
        obtain ⟨-, hvalid, -, -⟩ := bsome k d hres
        exact absurd hvalid (hall k)

section RatEvalB

attribute [local semireducible] Rat.add Rat.mul Rat.sub Rat.inv

/-- **C2** (counterexample): on `psScore` the source selects candidate 3
(distance 0) while the claimed signed-projection rule selects
candidate 2 (projection `-99/10`); on `psThresh` the source rejects the
only candidate (determinant `1e-8 < 2⁻²³`) while the claimed `1e-10`
threshold accepts it. -/
theorem find_right_conjugate_differs_from_claimed_rule :
    (findRightConjugatePoint psScore ⟨0, 1⟩ = some 3
      ∧ findRightConjugatePointSpec psScore ⟨0, 1⟩ = some 2)
    ∧ (findRightConjugatePoint psThresh ⟨0, 1⟩ = none
      ∧ findRightConjugatePointSpec psThresh ⟨0, 1⟩ = some 2) := by
  decide

/-- Witness for `findRightConjugatePoint_minimizes` at a concrete input:
the returned candidate 3 of `psScore` is valid and its squared distance
is at most candidate 2's. -/
theorem findRightConjugatePoint_minimizes_witness :
    validCand psScore ⟨0, 1⟩ 3
      ∧ candDist2 psScore ⟨0, 1⟩ 3 ≤ candDist2 psScore ⟨0, 1⟩ 2 := by
  have h := (findRightConjugatePoint_minimizes psScore ⟨0, 1⟩).1 3 (by decide)
  exact ⟨h.1, h.2 2 (by decide)⟩

end RatEvalB

/-- `atan2Region` is `0` exactly on the open lower half-plane. -/
theorem atan2Region_eq_zero_iff (dy dx : ℚ) : atan2Region dy dx = 0 ↔ dy < 0 := by
  unfold atan2Region
  split_ifs with h1 h2 h3
  · simp [h1]
  · exact iff_of_false (by decide) (by rw [h2.1]; exact lt_irrefl 0)
  · exact iff_of_false (by decide) (not_lt.2 (le_of_lt h3))
  · exact iff_of_false (by decide) h1

/-- `atan2Region` is `2` exactly on the open upper half-plane. -/
theorem atan2Region_eq_two_iff (dy dx : ℚ) : atan2Region dy dx = 2 ↔ 0 < dy := by
  unfold atan2Region
  split_ifs with h1 h2 h3
  · exact iff_of_false (by decide) (not_lt.2 (le_of_lt h1))
  · exact iff_of_false (by decide) (by rw [h2.1]; exact lt_irrefl 0)
  · simp [h3]
  · exact iff_of_false (by decide) h3

/-- The embedded `atan2` ordering is irreflexive. -/
theorem angLt_irrefl (v : Pos2) : ¬ angLt v v := by
  unfold angLt
  rintro (h | ⟨-, h⟩)
  · exact lt_irrefl _ h
  · have hz : v.x * v.y - v.y * v.x = 0 := by ring
    rw [hz] at h
    exact lt_irrefl 0 h

/-- The embedded `atan2` ordering is transitive (it is order-isomorphic
to comparing angles in `(-π, π]`). -/
theorem angLt_trans {u v w : Pos2} (h1 : angLt u v) (h2 : angLt v w) : angLt u w := by
  unfold angLt at h1 h2 ⊢
  rcases h1 with h1 | ⟨h1e, h1c⟩
  · rcases h2 with h2 | ⟨h2e, h2c⟩
    · exact Or.inl (h1.trans h2)
    · exact Or.inl (h2e ▸ h1)
  · rcases h2 with h2 | ⟨h2e, h2c⟩
    · exact Or.inl (h1e ▸ h2)
    · refine Or.inr ⟨h1e.trans h2e, ?_⟩
      have key : (u.x * w.y - u.y * w.x) * v.y
          = (u.x * v.y - u.y * v.x) * w.y + (v.x * w.y - v.y * w.x) * u.y := by
        ring
      rcases lt_trichotomy v.y 0 with hv | hv | hv
      · have hu : u.y < 0 :=
          (atan2Region_eq_zero_iff u.y u.x).1
            (h1e.trans ((atan2Region_eq_zero_iff v.y v.x).2 hv))
        have hw : w.y < 0 :=
          (atan2Region_eq_zero_iff w.y w.x).1
            (h2e.symm.trans ((atan2Region_eq_zero_iff v.y v.x).2 hv))
        have hneg : (u.x * w.y - u.y * w.x) * v.y < 0 := by
          rw [key]
          have t1 := mul_neg_of_pos_of_neg h1c hw
          have t2 := mul_neg_of_pos_of_neg h2c hu
          linarith
        by_contra hna
        push_neg at hna
        have hnn := mul_nonneg (neg_nonneg.2 hna) (neg_nonneg.2 (le_of_lt hv))
        rw [neg_mul_neg] at hnn
        linarith
      · exfalso
        have hu : u.y = 0 := by
          rcases lt_trichotomy u.y 0 with h | h | h
          · have : v.y < 0 := (atan2Region_eq_zero_iff v.y v.x).1
              (h1e.symm.trans ((atan2Region_eq_zero_iff u.y u.x).2 h))
            exact absurd (hv ▸ this) (lt_irrefl 0)
          · exact h
          · have : 0 < v.y := (atan2Region_eq_two_iff v.y v.x).1
              (h1e.symm.trans ((atan2Region_eq_two_iff u.y u.x).2 h))
            exact absurd (hv ▸ this) (lt_irrefl 0)
        rw [hv, hu] at h1c
        simp at h1c
      · have hu : 0 < u.y :=
          (atan2Region_eq_two_iff u.y u.x).1
            (h1e.trans ((atan2Region_eq_two_iff v.y v.x).2 hv))
        have hw : 0 < w.y :=
          (atan2Region_eq_two_iff w.y w.x).1
            (h2e.symm.trans ((atan2Region_eq_two_iff v.y v.x).2 hv))
        have hpos : 0 < (u.x * w.y - u.y * w.x) * v.y := by
          rw [key]
          have t1 := mul_pos h1c hw
          have t2 := mul_pos h2c hu
          linarith
        by_contra hna
        push_neg at hna
        have hnp : (u.x * w.y - u.y * w.x) * v.y ≤ 0 :=
          mul_nonpos_iff.2 (Or.inr ⟨hna, le_of_lt hv⟩)
        linarith

/-- Transitivity transfers to the per-origin angle comparison. -/
theorem angleLtFrom_trans {p1 a b c : Pos2} (h1 : angleLtFrom p1 a b)
    (h2 : angleLtFrom p1 b c) : angleLtFrom p1 a c :=
  angLt_trans h1 h2

/-- `lexLe` is reflexive. -/
theorem lexLe_refl (p : Pos2) : lexLe p p := Or.inr ⟨rfl, le_refl _⟩

/-- `lexLe` is transitive. -/
theorem lexLe_trans {p q r : Pos2} (h1 : lexLe p q) (h2 : lexLe q r) : lexLe p r := by
  unfold lexLe at h1 h2 ⊢
  rcases h1 with h1 | ⟨h1e, h1y⟩
  · rcases h2 with h2 | ⟨h2e, h2y⟩
    · exact Or.inl (h1.trans h2)
    · exact Or.inl (h2e ▸ h1)
  · rcases h2 with h2 | ⟨h2e, h2y⟩
    · exact Or.inl (h1e ▸ h2)
    · exact Or.inr ⟨h1e.trans h2e, h1y.trans h2y⟩

/-- `lexLt` implies `lexLe`. -/
theorem lexLe_of_lexLt {p q : Pos2} (h : lexLt p q) : lexLe p q := by
  unfold lexLt at h
  unfold lexLe
  rcases h with h | ⟨he, hy⟩
  · exact Or.inl h
  · exact Or.inr ⟨he, le_of_lt hy⟩

/-- The lexicographic comparison is total: failure of strict `lexLt` in
one direction yields `lexLe` in the other. -/
theorem lexLe_of_not_lexLt {p q : Pos2} (h : ¬ lexLt p q) : lexLe q p := by
  unfold lexLt at h
  unfold lexLe
  push_neg at h
  rcases lt_trichotomy q.x p.x with hx | hx | hx
  · exact Or.inl hx
  · exact Or.inr ⟨hx, h.2 hx.symm⟩
  · exact absurd hx (not_lt.2 h.1)

/-- Worklist invariant of the leftmost-point scan: the fold result is an
in-range index whose point is lexicographically minimal among the start
index and every scanned index. -/
theorem lmStep_foldl (ps : List Pos2) :
    ∀ (l seen : List ℕ) (L : ℕ), L < ps.length →
      (∀ i ∈ l, i < ps.length) →
      (∀ j ∈ seen, lexLe (getP ps L) (getP ps j)) →
      (l.foldl (lmStep ps) L < ps.length
        ∧ lexLe (getP ps (l.foldl (lmStep ps) L)) (getP ps L)
        ∧ ∀ j ∈ seen ++ l, lexLe (getP ps (l.foldl (lmStep ps) L)) (getP ps j)) := by
  intro l
  induction l with
  | nil =>
    intro seen L hL _ hseen
    refine ⟨hL, lexLe_refl _, ?_⟩
    simpa using hseen
  | cons i l ih =>
    intro seen L hL hl hseen
    have hi : i < ps.length := hl i (List.mem_cons_self i l)
    have hl2 : ∀ j ∈ l, j < ps.length := fun j hj => hl j (List.mem_cons_of_mem i hj)
    rw [List.foldl_cons]
    by_cases hc : lexLt (getP ps i) (getP ps L)
    · have hstep : lmStep ps L i = i := by
        unfold lexLt at hc
        unfold lmStep
        rw [if_pos hc]
      rw [hstep]
      have hseen2 : ∀ j ∈ seen ++ [i], lexLe (getP ps i) (getP ps j) := by
        intro j hj
        rcases List.mem_append.1 hj with hj | hj
        · exact lexLe_trans (lexLe_of_lexLt hc) (hseen j hj)
        · simp only [List.mem_singleton] at hj
          subst hj
          exact lexLe_refl _
      have main := ih (seen ++ [i]) i hi hl2 hseen2
      exact ⟨main.1, lexLe_trans main.2.1 (lexLe_of_lexLt hc),
        fun j hj => main.2.2 j (by simpa using hj)⟩
    · have hstep : lmStep ps L i = L := by
        unfold lexLt at hc
        unfold lmStep
        rw [if_neg hc]
      rw [hstep]
      have hseen2 : ∀ j ∈ seen ++ [i], lexLe (getP ps L) (getP ps j) := by
        intro j hj
        rcases List.mem_append.1 hj with hj | hj
        · exact hseen j hj
        · simp only [List.mem_singleton] at hj
          subst hj
          exact lexLe_of_not_lexLt hc
      have main := ih (seen ++ [i]) L hL hl2 hseen2
      exact ⟨main.1, main.2.1, fun j hj => main.2.2 j (by simpa using hj)⟩

/-- Worklist invariant of the minimal-angle scan: the fold result is a
non-`L` in-range index, and no scanned non-`L` index has a strictly
smaller `atan2` angle from the leftmost point. -/
theorem baStep_foldl (ps : List Pos2) (L : ℕ) :
    ∀ (l seen : List ℕ) (B : ℕ), B ≠ L → B < ps.length →
      (∀ i ∈ l, i < ps.length) →
      (∀ j ∈ seen, j ≠ L →
          ¬ angleLtFrom (getP ps L) (getP ps j) (getP ps B)) →
      (l.foldl (baStep ps L) B ≠ L ∧ l.foldl (baStep ps L) B < ps.length
        ∧ ∀ j ∈ seen ++ l, j ≠ L →
            ¬ angleLtFrom (getP ps L) (getP ps j)
                (getP ps (l.foldl (baStep ps L) B))) := by
  intro l
  induction l with
  | nil =>
    intro seen B hBL hB _ hseen
    refine ⟨hBL, hB, ?_⟩
    simpa using hseen
  | cons i l ih =>
    intro seen B hBL hB hl hseen
    have hi : i < ps.length := hl i (List.mem_cons_self i l)
    have hl2 : ∀ j ∈ l, j < ps.length := fun j hj => hl j (List.mem_cons_of_mem i hj)
    rw [List.foldl_cons]
    by_cases hiL : i = L
    · have hstep : baStep ps L B i = B := by
        unfold baStep
        rw [if_pos hiL]
      rw [hstep]
      have hseen2 : ∀ j ∈ seen ++ [i], j ≠ L →
          ¬ angleLtFrom (getP ps L) (getP ps j) (getP ps B) := by
        intro j hj hjL
        rcases List.mem_append.1 hj with hj | hj
        · exact hseen j hj hjL
        · simp only [List.mem_singleton] at hj
          subst hj
          exact absurd hiL hjL
      have main := ih (seen ++ [i]) B hBL hB hl2 hseen2
      exact ⟨main.1, main.2.1, fun j hj => main.2.2 j (by simpa using hj)⟩
    · by_cases hang : angleLtFrom (getP ps L) (getP ps i) (getP ps B)
      · have hstep : baStep ps L B i = i := by
          unfold baStep
          rw [if_neg hiL, if_pos hang]
        rw [hstep]
        have hseen2 : ∀ j ∈ seen ++ [i], j ≠ L →
            ¬ angleLtFrom (getP ps L) (getP ps j) (getP ps i) := by
          intro j hj hjL hcon
          rcases List.mem_append.1 hj with hj | hj
          · exact hseen j hj hjL (angleLtFrom_trans hcon hang)
          · simp only [List.mem_singleton] at hj
            subst hj
            exact angLt_irrefl _ hcon
        have main := ih (seen ++ [i]) i hiL hi hl2 hseen2
        exact ⟨main.1, main.2.1, fun j hj => main.2.2 j (by simpa using hj)⟩
      · have hstep : baStep ps L B i = B := by
          unfold baStep
          rw [if_neg hiL, if_neg hang]
        rw [hstep]
        have hseen2 : ∀ j ∈ seen ++ [i], j ≠ L →
            ¬ angleLtFrom (getP ps L) (getP ps j) (getP ps B) := by
          intro j hj hjL
          rcases List.mem_append.1 hj with hj | hj
          · exact hseen j hj hjL
          · simp only [List.mem_singleton] at hj
            subst hj
            exact hang
        have main := ih (seen ++ [i]) B hBL hB hl2 hseen2
        exact ⟨main.1, main.2.1, fun j hj => main.2.2 j (by simpa using hj)⟩

/-- **C6** (confirmed): `init_triangulation` is a silent no-op for fewer
than 3 points; for at least 3 points it resets the triangle list and
both edge sets and seeds the alive set with the single edge
`Edge::new(L, B)`, where `L` is the leftmost point (lowest `x`, ties by
lowest `y`) and `B` is an index (other than `L`) of minimal signed
`atan2` angle of the offset vector from `L` (the `atan2` comparison is
embedded by the order-isomorphic comparator `angleLtFrom`). -/
theorem initTriangulation_seeds_leftmost_min_angle_edge (s : TriangulationState) :
    (s.points.length < 3 → initTriangulation s = s)
    ∧ (3 ≤ s.points.length →
        ((initTriangulation s).points = s.points
            ∧ (initTriangulation s).triangles = []
            ∧ (initTriangulation s).triangleIdxs = []
            ∧ (initTriangulation s).alive_edges
                = ({findInitialEdge s.points} : Finset Edge)
            ∧ (initTriangulation s).dead_edges = (∅ : Finset Edge))
          ∧ findInitialEdge s.points
              = Edge.new (leftmostIdx s.points)
                  (bestAngleIdx s.points (leftmostIdx s.points))
          ∧ leftmostIdx s.points < s.points.length
          ∧ (∀ i < s.points.length,
                lexLe (getP s.points (leftmostIdx s.points)) (getP s.points i))
          ∧ bestAngleIdx s.points (leftmostIdx s.points) < s.points.length
          ∧ bestAngleIdx s.points (leftmostIdx s.points) ≠ leftmostIdx s.points
          ∧ (∀ i < s.points.length, i ≠ leftmostIdx s.points →
                ¬ angleLtFrom (getP s.points (leftmostIdx s.points))
                    (getP s.points i)
                    (getP s.points
                      (bestAngleIdx s.points (leftmostIdx s.points))))) := by
  constructor
  · intro h
    unfold initTriangulation
    rw [if_pos h]
  · intro h
    have hnl : ¬ s.points.length < 3 := not_lt.2 h
    have hlen0 : 0 < s.points.length := by omega
    have hrange1 : ∀ i ∈ List.range' 1 (s.points.length - 1), i < s.points.length := by
      intro i hi
      have := List.mem_range'_1.1 hi
      omega
    have hlm := lmStep_foldl s.points (List.range' 1 (s.points.length - 1)) [0] 0
      hlen0 hrange1 (by
        intro j hj
        simp only [List.mem_singleton] at hj
        subst hj
        exact lexLe_refl _)
    have hLlt : leftmostIdx s.points < s.points.length := hlm.1
    have hLmin : ∀ i < s.points.length,
        lexLe (getP s.points (leftmostIdx s.points)) (getP s.points i) := by
      intro i hilt
      apply hlm.2.2 i
      rcases Nat.eq_zero_or_pos i with h0 | h0
      · subst h0
        exact List.mem_append.2 (Or.inl (List.mem_singleton.2 rfl))
      · refine List.mem_append.2 (Or.inr (List.mem_range'_1.2 ⟨h0, ?_⟩))
        omega
    have hB0ne : (leftmostIdx s.points + 1) % s.points.length ≠ leftmostIdx s.points := by
      rcases eq_or_lt_of_le (Nat.succ_le_of_lt hLlt) with heq | hlt2
      · have hmod : (leftmostIdx s.points + 1) % s.points.length = 0 := by
          rw [show leftmostIdx s.points + 1 = s.points.length from heq]
          exact Nat.mod_self _
        rw [hmod]
        omega
      · rw [Nat.mod_eq_of_lt hlt2]
        omega
    have hB0lt : (leftmostIdx s.points + 1) % s.points.length < s.points.length :=
      Nat.mod_lt _ hlen0
    have hba := baStep_foldl s.points (leftmostIdx s.points)
      (List.range s.points.length) []
      ((leftmostIdx s.points + 1) % s.points.length) hB0ne hB0lt
      (fun i hi => List.mem_range.1 hi)
      (fun j hj => absurd hj (List.not_mem_nil j))
    refine ⟨⟨?_, ?_, ?_, ?_, ?_⟩, rfl, hLlt, hLmin, hba.2.1, hba.1, ?_⟩
    · unfold initTriangulation
      rw [if_neg hnl]
    · unfold initTriangulation
      rw [if_neg hnl]
    · unfold initTriangulation
      rw [if_neg hnl]
    · unfold initTriangulation
      rw [if_neg hnl]
    · unfold initTriangulation
      rw [if_neg hnl]
    · intro i hilt hiL
      exact hba.2.2 i (by simpa using List.mem_range.2 hilt) hiL

/-- `Edge::new` never rebuilds an edge whose endpoints avoid `b`. -/
theorem edge_new_ne (x b : ℕ) (e : Edge) (hbf : b ≠ e.fst) (hbs : b ≠ e.snd) :
    Edge.new x b ≠ e ∧ Edge.new b x ≠ e := by
  obtain ⟨ef, es⟩ := e
  constructor
  · unfold Edge.new
    split_ifs
    · intro hcon
      injection hcon with h1 h2
      exact hbs h2
    · intro hcon
      injection hcon with h1 h2
      exact hbf h1
  · unfold Edge.new
    split_ifs
    · intro hcon
      injection hcon with h1 h2
      exact hbf h1
    · intro hcon
      injection hcon with h1 h2
      exact hbs h2

/-- A right conjugate point returned by `find_right_conjugate_point` is
never one of the edge endpoints (the scan skips them). -/
theorem frcp_some_ne (ps : List Pos2) (e : Edge) (b : ℕ)
    (h : findRightConjugatePoint ps e = some b) : b ≠ e.fst ∧ b ≠ e.snd := by
  obtain ⟨-, bsome⟩ := frcp_foldl_invariant ps e (List.range ps.length) [] none
    (fun i hi => List.mem_range.1 hi)
    (fun _ j hj => absurd hj (List.not_mem_nil j))
    (fun k d hk => Option.noConfusion hk)
  unfold findRightConjugatePoint at h
  cases hres : (List.range ps.length).foldl (frcpStep ps e.fst e.snd) none with
  | none =>
    rw [hres] at h
    exact Option.noConfusion h
  | some kd =>
    obtain ⟨k, d⟩ := kd
    rw [hres] at h
    simp only [Option.map_some', Option.some.injEq] at h
    subst h
    obtain ⟨-, hv, -, -⟩ := bsome k d hres
    exact ⟨hv.2.1, hv.2.2.1⟩

/-- `processNewEdge` preserves alive/dead disjointness. -/
theorem processNewEdge_disjoint (st : TriangulationState) (ed : Edge)
    (h : Disjoint st.alive_edges st.dead_edges) :
    Disjoint (processNewEdge st ed).alive_edges (processNewEdge st ed).dead_edges := by
  unfold processNewEdge
  split_ifs with hni ha
  · exact Finset.disjoint_insert_left.2 ⟨hni.1, h⟩
  · exact Finset.disjoint_insert_right.2
      ⟨Finset.not_mem_erase ed st.alive_edges,
       Finset.disjoint_of_subset_left (Finset.erase_subset ed st.alive_edges) h⟩
  · exact h

/-- `processNewEdge` adds at most `ed` to the alive set. -/
theorem processNewEdge_alive_subset (st : TriangulationState) (ed : Edge) :
    (processNewEdge st ed).alive_edges ⊆ insert ed st.alive_edges := by
  unfold processNewEdge
  split_ifs
  · exact Finset.Subset.refl _
  · exact (Finset.erase_subset ed st.alive_edges).trans
      (Finset.subset_insert ed st.alive_edges)
  · exact Finset.subset_insert ed st.alive_edges

/-- After examining the two new edges and recording the popped edge `e`
dead, the alive and dead sets stay disjoint, provided `e` is out of the
alive set and neither new edge equals `e`. -/
theorem disjoint_after_emission (st : TriangulationState) (e ed1 ed2 : Edge)
    (h : Disjoint st.alive_edges st.dead_edges) (he : e ∉ st.alive_edges)
    (h1 : ed1 ≠ e) (h2 : ed2 ≠ e) :
    Disjoint (processNewEdge (processNewEdge st ed1) ed2).alive_edges
      (insert e (processNewEdge (processNewEdge st ed1) ed2).dead_edges) := by
  have d2 := processNewEdge_disjoint (processNewEdge st ed1) ed2
    (processNewEdge_disjoint st ed1 h)
  refine Finset.disjoint_insert_right.2 ⟨?_, d2⟩
  intro hmem
  have hm1 := processNewEdge_alive_subset (processNewEdge st ed1) ed2 hmem
  rcases Finset.mem_insert.1 hm1 with h' | h'
  · exact h2 h'.symm
  · have hm2 := processNewEdge_alive_subset st ed1 h'
    rcases Finset.mem_insert.1 hm2 with h'' | h''
    · exact h1 h''.symm
    · exact he h''

/-- A single worklist iteration preserves alive/dead disjointness. -/
theorem stepPop_disjoint (s : TriangulationState) (e : Edge)
    (h : Disjoint s.alive_edges s.dead_edges) :
    Disjoint (stepPop s e).alive_edges (stepPop s e).dead_edges := by
  have herase : Disjoint (s.alive_edges.erase e) s.dead_edges :=
    Finset.disjoint_of_subset_left (Finset.erase_subset e s.alive_edges) h
  unfold stepPop
  split_ifs with hdead
  · exact herase
  · cases hfc : findRightConjugatePoint s.points e with
    | none =>
      dsimp only
      exact herase
    | some b =>
      dsimp only
      have hb := frcp_some_ne s.points e b hfc
      apply disjoint_after_emission
      · exact herase
      · exact Finset.not_mem_erase e s.alive_edges
      · split_ifs
        · exact (edge_new_ne e.fst b e hb.1 hb.2).1
        · exact (edge_new_ne e.fst b e hb.1 hb.2).2
      · split_ifs
        · exact (edge_new_ne e.snd b e hb.1 hb.2).1
        · exact (edge_new_ne e.snd b e hb.1 hb.2).2

/-- **C7** (confirmed): in every state reachable from an empty state by
`init_triangulation` calls and `step_triangulation` worklist iterations
(any pop order), the alive and dead edge sets are disjoint. -/
theorem reachable_alive_dead_disjoint (s : TriangulationState) (h : Reachable s) :
    Disjoint s.alive_edges s.dead_edges := by
  induction h with
  | base ps => simp [emptyState]
  | init _ ih =>
    unfold initTriangulation
    split_ifs with hlen
    · exact ih
    · simp
  | pop e he _ ih => exact stepPop_disjoint _ e ih

/-- Folding `add_vertex_pos` over any list preserves vertex-list
non-emptiness. -/
theorem foldl_add_vertex_pos_ne_nil :
    ∀ (rest : List Pos2) (poly : Polygon), poly.vertexes ≠ [] →
      (rest.foldl Polygon.add_vertex_pos poly).vertexes ≠ []
  | [], _, h => h
  | p :: rest, poly, _ =>
    foldl_add_vertex_pos_ne_nil rest (poly.add_vertex_pos p)
      (by simp [Polygon.add_vertex_pos, Polygon.add_vertex])

/-- **C10** (confirmed): every polygon produced by `new`, `from_pos` or
a successful `from_poses` has at least one vertex, `add_vertex`
increments the vertex count (so preserves non-emptiness), `from_poses`
on an empty vector hits the `unwrap` panic (modelled as `none`), and on
a non-empty vertex list the divisor `vertexes.len()` used by
`get_center` is non-zero. -/
theorem polygon_constructors_nonempty :
    (∀ x y : ℚ, (Polygon.new x y).vertexes ≠ [])
    ∧ (∀ p : Pos2, (Polygon.from_pos p).vertexes ≠ [])
    ∧ (∀ (poly : Polygon) (x y : ℚ),
        (poly.add_vertex x y).vertexes.length = poly.vertexes.length + 1)
    ∧ (∀ (poly : Polygon) (x y : ℚ), poly.vertexes ≠ [] →
        (poly.add_vertex x y).vertexes ≠ [])
    ∧ Polygon.from_poses [] = none
    ∧ (∀ (p : Pos2) (rest : List Pos2) (poly : Polygon),
        Polygon.from_poses (p :: rest) = some poly → poly.vertexes ≠ [])
    ∧ (∀ poly : Polygon, poly.vertexes ≠ [] → ((poly.vertexes.length : ℚ) ≠ 0)) := by
  refine ⟨?_, ?_, ?_, ?_, rfl, ?_, ?_⟩
  · intro x y
    simp [Polygon.new]
  · intro p
    simp [Polygon.from_pos, Polygon.new]
  · intro poly x y
    simp [Polygon.add_vertex]
  · intro poly x y _
    simp [Polygon.add_vertex]
  · intro p rest poly h
    unfold Polygon.from_poses at h
    rw [Option.some_inj] at h
    subst h
    exact foldl_add_vertex_pos_ne_nil rest (Polygon.from_pos p)
      (by simp [Polygon.from_pos, Polygon.new])
  · intro poly h
    exact Nat.cast_ne_zero.2 (Nat.pos_iff_ne_zero.1 (List.length_pos.2 h))

section RatEvalC

attribute [local semireducible] Rat.add Rat.mul Rat.sub Rat.inv

/-- Witness for `initTriangulation_seeds_leftmost_min_angle_edge` at the
concrete three-point input `psTriB` (leftmost index 2, best angle
index 1), with the hypotheses discharged by evaluation. -/
theorem initTriangulation_seeds_witness :
    3 ≤ (emptyState psTriB).points.length
      ∧ leftmostIdx (emptyState psTriB).points < (emptyState psTriB).points.length
      ∧ lexLe (getP (emptyState psTriB).points (leftmostIdx (emptyState psTriB).points))
          (getP (emptyState psTriB).points 0) :=
  ⟨by decide,
   ((initTriangulation_seeds_leftmost_min_angle_edge (emptyState psTriB)).2
      (by decide)).2.2.1,
   ((initTriangulation_seeds_leftmost_min_angle_edge (emptyState psTriB)).2
      (by decide)).2.2.2.1 0 (by decide)⟩

/-- Witness for `reachable_alive_dead_disjoint` at a concrete reachable
state: empty state on `psTriB`, initialized, then one worklist iteration
popping the seed edge. -/
theorem reachable_alive_dead_disjoint_witness :
    Disjoint (stepPop (initTriangulation (emptyState psTriB)) ⟨1, 2⟩).alive_edges
      (stepPop (initTriangulation (emptyState psTriB)) ⟨1, 2⟩).dead_edges :=
  reachable_alive_dead_disjoint _
    (Reachable.pop ⟨1, 2⟩ (by decide) (Reachable.init (Reachable.base psTriB)))

/-- Witness for `polygon_constructors_nonempty` at concrete polygons,
with the non-emptiness hypotheses discharged by evaluation. -/
theorem polygon_constructors_nonempty_witness :
    ((Polygon.from_pos ⟨0, 0⟩).add_vertex 1 0).vertexes ≠ []
      ∧ (((Polygon.new 1 2).vertexes.length : ℚ) ≠ 0) :=
  ⟨polygon_constructors_nonempty.2.2.2.1 (Polygon.from_pos ⟨0, 0⟩) 1 0 (by decide),
   polygon_constructors_nonempty.2.2.2.2.2.2 (Polygon.new 1 2) (by decide)⟩

end RatEvalC

end Triang
